import Mathlib

/-!
Verification of the `ModelWrapper` inference wrapper (`pytorch/inference.py`).

The wrapper orchestrates three external components: a vocabulary
(`utils/vocabulary.py`), a sentencepiece subword tokenizer, and a
`MemTransformerLM` language model.  Only the wrapper's own code is in scope
here; the external components are embedded as abstract data carried by the
`ModelWrapper` structure, with the pieces the wrapper relies on modelled from
the specification where marked.

Python strings are embedded as `List Char`, Python lists as Lean lists,
tensors of log-probabilities as `List (List ℚ)` (rows of rationals), and
fallible methods return `Except String`.
-/

/-- Python strings are embedded as lists of characters. -/
abbrev Str := List Char

/-- Vocabulary component.  The flags mirror the `Vocab` object the wrapper
reads (`add_eos`, `add_double_eos`, `lower_case`); `idx2sym` is the ordered
symbol table used by `next_top_k` and `sample_next`.  `sym2idx` is modelled
from the spec: `utils/vocabulary.py` is not part of the sources under
verification, and the spec states that the token-id tensor is an ordered
sequence of integers, one per token, produced by vocabulary lookup.  `EOS` is
the reserved end-of-sequence marker symbol appended by `tokenize`. -/
structure Vocab where
  idx2sym : List Str
  sym2idx : Str → Nat
  lower_case : Bool
  add_eos : Bool
  add_double_eos : Bool
  EOS : Str

/-- The inference wrapper state.  `encode` models
`sp_processor.encode_as_pieces` and `decode` models
`sp_processor.DecodePieces` (the external sentencepiece library, kept
abstract).  `tgt_len` is `self.model.tgt_len`, the model's maximum chunk
length.  `nextDist` is modelled from the spec: `mem_transformer.py` is not
part of the sources under verification, and the spec states that row *i* of
the log-probability matrix is the model's predicted distribution for the
token following position *i*, conditioned on positions `0..i` and on carried
memory from earlier chunks; `nextDist` gives that distribution as a function
of the full id prefix seen so far. -/
structure ModelWrapper where
  vocab : Vocab
  encode : Str → List Str
  decode : List Str → Str
  tgt_len : Nat
  nextDist : List Nat → List ℚ

/-- Python `text.split('\n')`: splits on every newline, always returns at
least one (possibly empty) piece. -/
def pySplitNl : Str → List Str
  | [] => [[]]
  | c :: rest =>
    if c = '\n' then [] :: pySplitNl rest
    else
      match pySplitNl rest with
      | [] => [[c]]
      | l :: ls => (c :: l) :: ls

/-- Python `line.strip()`: removes leading and trailing whitespace. -/
def pyStrip (s : Str) : Str :=
  ((s.dropWhile Char.isWhitespace).reverse.dropWhile Char.isWhitespace).reverse

/-- The loop body of `ModelWrapper.tokenize`, one iteration per line of the
split text.  Each iteration extends the output with the subword pieces of the
stripped line, asserts `not self.vocab.add_double_eos`, and appends the EOS
marker when `add_eos` is set and the line is not the last one. -/
def Vocab.tokenizeLines (v : Vocab) (encode : Str → List Str) :
    List Str → Except String (List Str)
  | [] => Except.ok []
  | [line] =>
    if v.add_double_eos then Except.error "assert not self.vocab.add_double_eos"
    else Except.ok (encode (pyStrip line))
  | line :: next :: rest =>
    if v.add_double_eos then Except.error "assert not self.vocab.add_double_eos"
    else
      match v.tokenizeLines encode (next :: rest) with
      | Except.error e => Except.error e
      | Except.ok tail =>
        Except.ok (encode (pyStrip line) ++
          (if v.add_eos then [v.EOS] else []) ++ tail)

/-- Embedding of `ModelWrapper.tokenize`. -/
def ModelWrapper.tokenize (w : ModelWrapper) (text : Str) :
    Except String (List Str) :=
  w.vocab.tokenizeLines w.encode (pySplitNl text)

/-- Models Python `range(0, n, step)` for `step ≥ 1`: the multiples of
`step` below `n`, ascending. -/
def pyRange3 (n step : Nat) : List Nat :=
  (List.range n).filter (fun i => i % step == 0)

/-- Modelled from the spec: one forward pass of the language model on a chunk
`xs` with carried memory `mems`, with no target labels.  The opaque recurrent
memory state is embedded as the list of token ids the model has already
consumed; the spec states that row *i* of the produced chunk is the
distribution for the token following position *i*, conditioned on the carried
memory and positions `0..i` of the chunk, and that the updated memory extends
the carried one with the chunk. -/
def ModelWrapper.forward (w : ModelWrapper) (mems : List Nat) (xs : List Nat) :
    List (List ℚ) × List Nat :=
  ((List.range xs.length).map fun i => w.nextDist (mems ++ xs.take (i + 1)),
    mems ++ xs)

/-- One iteration of the chunk loop in `predict_log_probs`: slice the next
chunk `all_xs[idx : idx + tgt_len]`, run the forward pass on it with the
memory carried in the accumulator, append the chunk's log-probabilities. -/
def chunkStep (w : ModelWrapper) (all_xs : List Nat)
    (acc : List (List (List ℚ)) × List Nat) (idx : Nat) :
    List (List (List ℚ)) × List Nat :=
  let xs := (all_xs.drop idx).take w.tgt_len
  let fr := w.forward acc.2 xs
  (acc.1 ++ [fr.1], fr.2)

/-- Embedding of `ModelWrapper.predict_log_probs`: rejects an empty token
list, converts tokens to ids, then runs the chunk loop with memory starting
empty and concatenates the per-chunk log-probability chunks. -/
def ModelWrapper.predict_log_probs (w : ModelWrapper) (tokens : List Str) :
    Except String (List (List ℚ)) :=
  if tokens = [] then Except.error "tokens must be non-empty"
  else
    let all_xs := tokens.map w.vocab.sym2idx
    Except.ok (((pyRange3 all_xs.length w.tgt_len).foldl
      (chunkStep w all_xs)
      (([] : List (List (List ℚ))), ([] : List Nat))).1.flatten)

/-- Spec-side definition for the refinement claim: the hypothetical
single-chunk forward pass over the whole id sequence, with empty initial
memory. -/
def ModelWrapper.singlePass (w : ModelWrapper) (tokens : List Str) :
    List (List ℚ) :=
  (w.forward [] (tokens.map w.vocab.sym2idx)).1

/-- Ordering used to model `torch.argsort(log_probs)`: index `i` comes before
index `j` when its value is smaller, with ties resolved by index order (the
unspecified tie order of the library call is fixed to the stable one). -/
def argsortRel (key : List ℚ) (i j : Nat) : Prop :=
  key.getD i 0 < key.getD j 0 ∨ (key.getD i 0 = key.getD j 0 ∧ i ≤ j)

instance argsortRelDec (key : List ℚ) : DecidableRel (argsortRel key) :=
  fun i j => inferInstanceAs
    (Decidable (key.getD i 0 < key.getD j 0 ∨
      (key.getD i 0 = key.getD j 0 ∧ i ≤ j)))

instance argsortRelTotal (key : List ℚ) : IsTotal Nat (argsortRel key) where
  total i j := by
    rcases lt_trichotomy (key.getD i 0) (key.getD j 0) with h | h | h
    · exact Or.inl (Or.inl h)
    · rcases Nat.le_total i j with hij | hij
      · exact Or.inl (Or.inr ⟨h, hij⟩)
      · exact Or.inr (Or.inr ⟨h.symm, hij⟩)
    · exact Or.inr (Or.inl h)

instance argsortRelTrans (key : List ℚ) : IsTrans Nat (argsortRel key) where
  trans i j k hij hjk := by
    rcases hij with h1 | ⟨h1, hle1⟩
    · rcases hjk with h2 | ⟨h2, _⟩
      · exact Or.inl (h1.trans h2)
      · exact Or.inl (lt_of_lt_of_le h1 (le_of_eq h2))
    · rcases hjk with h2 | ⟨h2, hle2⟩
      · exact Or.inl (lt_of_le_of_lt (le_of_eq h1) h2)
      · exact Or.inr ⟨h1.trans h2, hle1.trans hle2⟩

/-- Models `torch.argsort(log_probs)`: the indices `0 .. n-1` reordered so
that the corresponding values ascend. -/
def argsort (key : List ℚ) : List Nat :=
  List.insertionSort (argsortRel key) (List.range key.length)

/-- Models the Python slice `l[-k:]`: the last `k` elements for `k ≥ 1`
(all of them when `k ≥ len(l)`), and the whole list when `k = 0`. -/
def pySliceLast (k : Nat) (l : List α) : List α :=
  if k = 0 then l else l.drop (l.length - k)

/-- The last row of `predict_log_probs` (`self.predict_log_probs(tokens)[-1]`),
as read by `next_top_k` and `sample_next`. -/
def ModelWrapper.lastRow (w : ModelWrapper) (tokens : List Str) : List ℚ :=
  ((w.predict_log_probs tokens).toOption.getD []).getLastD []

/-- Embedding of `ModelWrapper.next_top_k`: last row of the log-probability
matrix, ascending argsort, keep the last `top_k` indices, read off their
log-probabilities, and return symbol/log-probability pairs in reversed
(descending) order. -/
def ModelWrapper.next_top_k (w : ModelWrapper) (tokens : List Str)
    (top_k : Nat) : Except String (List (Str × ℚ)) :=
  match w.predict_log_probs tokens with
  | Except.error e => Except.error e
  | Except.ok m =>
    let log_probs := m.getLastD []
    let top_indices := pySliceLast top_k (argsort log_probs)
    let top_log_probs := top_indices.map fun i => log_probs.getD i 0
    Except.ok (((top_indices.zip top_log_probs).reverse).map fun p =>
      (w.vocab.idx2sym.getD p.1 [], p.2))

/-- Embedding of `ModelWrapper.sample_next`.  The source draws one sample
from `torch.multinomial` over the exponentiated log-probabilities of the
`top_k` kept indices; every such weight is strictly positive, so the support
of the draw is all positions of `top_indices`, and the draw is modelled by the
explicit argument `pick`, valid exactly when it is such a position. -/
def ModelWrapper.sample_next (w : ModelWrapper) (tokens : List Str)
    (top_k : Nat) (pick : Nat) : Except String Str :=
  match w.predict_log_probs tokens with
  | Except.error e => Except.error e
  | Except.ok m =>
    let log_probs := m.getLastD []
    let top_indices := pySliceLast top_k (argsort log_probs)
    if pick < top_indices.length then
      Except.ok (w.vocab.idx2sym.getD (top_indices.getD pick 0) [])
    else Except.error "invalid multinomial draw"

/-- The loop of `ModelWrapper.sample_text_iter`, run for one step per entry
of `picks` (each entry models that step's multinomial draw).  Each step
samples a next token over the current token list, emits the fragment
`decode([tokens[-1], next_token])[len(decode([tokens[-1]])):]`, and appends
the sampled token.  Returns the fragments yielded, in order, and the final
token list. -/
def ModelWrapper.sampleRun (w : ModelWrapper) (top_k : Nat) :
    List Str → List Nat → Except String (List Str × List Str)
  | tokens, [] => Except.ok ([], tokens)
  | tokens, pick :: picks =>
    match w.sample_next tokens top_k pick with
    | Except.error e => Except.error e
    | Except.ok next_token =>
      let frag := (w.decode [tokens.getLastD [], next_token]).drop
        (w.decode [tokens.getLastD []]).length
      match w.sampleRun top_k (tokens ++ [next_token]) picks with
      | Except.error e => Except.error e
      | Except.ok res => Except.ok (frag :: res.1, res.2)

/-- Embedding of `ModelWrapper.sample_text_iter`, consumed for
`picks.length` steps: tokenize the seed text, then run the generation loop. -/
def ModelWrapper.sample_text_iter (w : ModelWrapper) (text : Str)
    (top_k : Nat) (picks : List Nat) : Except String (List Str × List Str) :=
  match w.tokenize text with
  | Except.error e => Except.error e
  | Except.ok tokens => w.sampleRun top_k tokens picks

/-- Concrete vocabulary used for witnesses: two symbols, `add_eos` set,
`add_double_eos` clear. -/
def demoVocab : Vocab where
  idx2sym := [['a'], ['b']]
  sym2idx := fun s => if s = ['b'] then 1 else 0
  lower_case := false
  add_eos := true
  add_double_eos := false
  EOS := ['<', 'e', 'o', 's', '>']

/-- Concrete wrapper used for witnesses: each stripped line is one subword
piece, decoding concatenates pieces, chunk length 1, and a fixed next-token
distribution assigning log-probabilities 1 and 2 to the two symbols. -/
def demoW : ModelWrapper where
  vocab := demoVocab
  encode := fun line => if line = [] then [] else [line]
  decode := fun pieces => pieces.flatten
  tgt_len := 1
  nextDist := fun _ => [(1 : ℚ), 2]

/-- Concrete wrapper whose vocabulary has `add_double_eos` set. -/
def demoWdbl : ModelWrapper :=
  { demoW with vocab := { demoVocab with add_double_eos := true } }

/-- The per-chunk log-probability chunks produced by the loop of
`predict_log_probs`, concatenated in chunk order: one chunk per start index
in `starts`, each sliced as `all_xs[idx : idx + tgt_len]` and run through the
forward pass with the memory carried from the previous chunk. -/
def chunkRows (w : ModelWrapper) (all_xs : List Nat) (mems : List Nat) :
    List Nat → List (List ℚ)
  | [] => []
  | idx :: starts =>
    (w.forward mems ((all_xs.drop idx).take w.tgt_len)).1 ++
      chunkRows w all_xs (mems ++ (all_xs.drop idx).take w.tgt_len) starts

/-- C7: `predict_log_probs` called with the empty token sequence fails with
the input-validation error `tokens must be non-empty`, for every wrapper
whatever its model component — the result does not depend on `nextDist`,
so no forward pass is involved. -/
theorem predict_log_probs_empty_error (w : ModelWrapper) :
    w.predict_log_probs [] = Except.error "tokens must be non-empty" := rfl

/-- Splitting a text on newlines always yields at least one line. -/
theorem pySplitNl_ne_nil (s : Str) : pySplitNl s ≠ [] := by
  cases s with
  | nil => simp [pySplitNl]
  | cons c rest =>
    simp only [pySplitNl]
    split
    · simp
    · split <;> simp

/-- C6: when the vocabulary is configured with `add_double_eos`, `tokenize`
fails its assertion on every input text and never returns a token sequence:
the split line list is never empty, so the asserting loop body always runs. -/
theorem tokenize_add_double_eos_fails (w : ModelWrapper)
    (h : w.vocab.add_double_eos = true) (text : Str) :
    w.tokenize text = Except.error "assert not self.vocab.add_double_eos" := by
  rw [ModelWrapper.tokenize]
  rcases hl : pySplitNl text with _ | ⟨line, rest⟩
  · exact absurd hl (pySplitNl_ne_nil text)
  · cases rest with
    | nil => simp [Vocab.tokenizeLines, h]
    | cons next rest => simp [Vocab.tokenizeLines, h]

theorem tokenize_add_double_eos_fails_witness :
    demoWdbl.vocab.add_double_eos = true ∧
      demoWdbl.tokenize [] =
        Except.error "assert not self.vocab.add_double_eos" :=
  ⟨by decide, tokenize_add_double_eos_fails demoWdbl (by decide) []⟩

/-- In the absence of `add_double_eos`, the tokenize loop produces the
encoded stripped lines joined with the EOS separator (an empty separator when
`add_eos` is off). -/
theorem tokenizeLines_ok (v : Vocab) (encode : Str → List Str)
    (h : v.add_double_eos = false) :
    ∀ lines : List Str, v.tokenizeLines encode lines =
      Except.ok (((lines.map fun line => encode (pyStrip line)).intersperse
        (if v.add_eos then [v.EOS] else [])).flatten)
  | [] => by simp [Vocab.tokenizeLines]
  | [line] => by simp [Vocab.tokenizeLines, h]
  | line :: next :: rest => by
    rw [Vocab.tokenizeLines, tokenizeLines_ok v encode h (next :: rest)]
    simp [h, List.intersperse_cons_cons, List.append_assoc]

/-- C5: `tokenize` splits the text on newlines, strips each line, encodes
each stripped line in order, and inserts the EOS marker after every line
except the last exactly when `add_eos` is set; in particular on `"a\nb"`
with `add_eos` set the result is the pieces of `"a"`, one EOS marker, then
the pieces of `"b"`, with no marker after `"b"`. -/
theorem tokenize_splits_lines (w : ModelWrapper)
    (h : w.vocab.add_double_eos = false) :
    (∀ text : Str, w.tokenize text =
      Except.ok ((((pySplitNl text).map fun line =>
        w.encode (pyStrip line)).intersperse
          (if w.vocab.add_eos then [w.vocab.EOS] else [])).flatten)) ∧
    (w.vocab.add_eos = true →
      w.tokenize ['a', '\n', 'b'] =
        Except.ok (w.encode ['a'] ++ [w.vocab.EOS] ++ w.encode ['b'])) := by
  constructor
  · intro text
    exact tokenizeLines_ok w.vocab w.encode h (pySplitNl text)
  · intro heos
    have hsplit : pySplitNl ['a', '\n', 'b'] = [['a'], ['b']] := by decide
    have := tokenizeLines_ok w.vocab w.encode h (pySplitNl ['a', '\n', 'b'])
    rw [ModelWrapper.tokenize, this, hsplit]
    have hstrip_a : pyStrip ['a'] = ['a'] := by decide
    have hstrip_b : pyStrip ['b'] = ['b'] := by decide
    simp [hstrip_a, hstrip_b, heos, List.intersperse_cons_cons,
      List.append_assoc]

theorem tokenize_splits_lines_witness :
    demoW.vocab.add_double_eos = false ∧ demoW.vocab.add_eos = true ∧
      demoW.tokenize ['a', '\n', 'b'] =
        Except.ok (demoW.encode ['a'] ++ [demoW.vocab.EOS] ++
          demoW.encode ['b']) :=
  ⟨by decide, by decide,
    (tokenize_splits_lines demoW (by decide)).2 (by decide)⟩

/-- Unfolding one step of the index list of the chunk loop. -/
theorem pyRange3_succ (n step : Nat) :
    pyRange3 (n + 1) step =
      pyRange3 n step ++ if n % step = 0 then [n] else [] := by
  simp only [pyRange3, List.range_succ, List.filter_append, List.filter_cons,
    List.filter_nil]
  split <;> simp_all

/-- Peeling the first chunk off the index list of the chunk loop. -/
theorem pyRange3_peel (step : Nat) (hs : 0 < step) :
    ∀ n : Nat, 0 < n →
      pyRange3 n step = 0 :: (pyRange3 (n - step) step).map (· + step) := by
  intro n
  induction n with
  | zero => omega
  | succ n ih =>
    intro _
    rcases Nat.eq_zero_or_pos n with hn | hn
    · subst hn
      have h1 : pyRange3 1 step = [0] := by
        simp [pyRange3, List.range_succ, Nat.zero_mod]
      have h2 : 1 - step = 0 := by omega
      rw [h1, h2]
      simp [pyRange3]
    · rw [pyRange3_succ, ih hn]
      rcases Nat.lt_or_ge n step with hns | hns
      · have hmod : n % step = n := Nat.mod_eq_of_lt hns
        have h2 : n - step = 0 := by omega
        have h3 : n + 1 - step = 0 := by omega
        rw [if_neg (by omega), h2, h3]
        simp [pyRange3]
      · have hmod : (n - step) % step = n % step := by
          conv_rhs => rw [show n = n - step + step by omega]
          rw [Nat.add_mod_right]
        have h3 : n + 1 - step = (n - step) + 1 := by omega
        rw [h3, pyRange3_succ, List.map_append, hmod]
        by_cases hz : n % step = 0
        · rw [if_pos hz, if_pos hz]
          simp [show n - step + step = n by omega]
        · rw [if_neg hz, if_neg hz]
          simp

/-- Shifting every chunk start by one chunk length is the same as chopping
the first chunk length off the id sequence. -/
theorem chunkRows_shift (w : ModelWrapper) (all_xs : List Nat) :
    ∀ (starts : List Nat) (mems : List Nat),
      chunkRows w all_xs mems (starts.map (· + w.tgt_len)) =
        chunkRows w (all_xs.drop w.tgt_len) mems starts
  | [], mems => rfl
  | idx :: starts, mems => by
    have hslice : (all_xs.drop (idx + w.tgt_len)).take w.tgt_len =
        ((all_xs.drop w.tgt_len).drop idx).take w.tgt_len := by
      rw [List.drop_drop, Nat.add_comm]
    simp only [List.map_cons, chunkRows, hslice]
    rw [chunkRows_shift w all_xs starts
      (mems ++ ((all_xs.drop w.tgt_len).drop idx).take w.tgt_len)]

/-- The chunk loop of `predict_log_probs`, flattened, is the concatenation of
the per-chunk results in chunk order. -/
theorem foldl_chunkStep_flatten (w : ModelWrapper) (all_xs : List Nat) :
    ∀ (starts : List Nat) (rows : List (List (List ℚ))) (mems : List Nat),
      ((starts.foldl (chunkStep w all_xs) (rows, mems)).1).flatten =
        rows.flatten ++ chunkRows w all_xs mems starts
  | [], rows, mems => by simp [chunkRows]
  | idx :: starts, rows, mems => by
    rw [List.foldl_cons,
      show chunkStep w all_xs (rows, mems) idx =
        (rows ++ [(w.forward mems ((all_xs.drop idx).take w.tgt_len)).1],
          mems ++ (all_xs.drop idx).take w.tgt_len) from rfl,
      foldl_chunkStep_flatten w all_xs starts _ _]
    simp [chunkRows, List.append_assoc]

/-- Chunked processing with carried memory computes, row for row, the
next-token distribution conditioned on the full prefix: the concatenation of
the per-chunk results equals the row list of a single pass. -/
theorem chunkRows_eq_rangeRows (w : ModelWrapper) (hstep : 0 < w.tgt_len) :
    ∀ (N : Nat) (all_xs mems : List Nat), all_xs.length = N →
      chunkRows w all_xs mems (pyRange3 all_xs.length w.tgt_len) =
        (List.range all_xs.length).map
          (fun i => w.nextDist (mems ++ all_xs.take (i + 1))) := by
  intro N
  induction N using Nat.strong_induction_on with
  | _ N ih =>
    intro all_xs mems hN
    rcases Nat.eq_zero_or_pos all_xs.length with h0 | hpos
    · rw [h0]
      simp [pyRange3, chunkRows]
    · rw [pyRange3_peel w.tgt_len hstep _ hpos]
      simp only [chunkRows, List.drop_zero]
      rw [chunkRows_shift w all_xs _ _]
      have hdl : (all_xs.drop w.tgt_len).length =
          all_xs.length - w.tgt_len := List.length_drop _ _
      rw [show pyRange3 (all_xs.length - w.tgt_len) w.tgt_len =
            pyRange3 (all_xs.drop w.tgt_len).length w.tgt_len by rw [hdl],
        ih (all_xs.length - w.tgt_len) (by omega) (all_xs.drop w.tgt_len)
          (mems ++ all_xs.take w.tgt_len) hdl]
      rw [ModelWrapper.forward]
      simp only [List.length_take]
      rcases le_or_lt all_xs.length w.tgt_len with hc | hc
      · have hmin : min w.tgt_len all_xs.length = all_xs.length := by omega
        have hdrop : List.drop w.tgt_len all_xs = [] := by
          apply List.drop_eq_nil_of_le
          omega
        rw [hmin, hdrop]
        simp only [List.length_nil, List.range_zero, List.map_nil,
          List.append_nil]
        refine List.map_congr_left fun i hi => ?_
        rw [List.mem_range] at hi
        rw [List.take_take, show min (i + 1) w.tgt_len = i + 1 by omega]
      · have hmin : min w.tgt_len all_xs.length = w.tgt_len := by omega
        rw [hmin, hdl]
        conv_rhs => rw [show all_xs.length =
          w.tgt_len + (all_xs.length - w.tgt_len) by omega]
        rw [List.range_add, List.map_append, List.map_map]
        congr 1
        · refine List.map_congr_left fun i hi => ?_
          rw [List.mem_range] at hi
          rw [List.take_take, show min (i + 1) w.tgt_len = i + 1 by omega]
        · refine List.map_congr_left fun i _ => ?_
          simp only [Function.comp]
          conv_rhs => rw [show w.tgt_len + i + 1 = w.tgt_len + (i + 1) by
            omega, List.take_add]
          rw [← List.append_assoc]

/-- Characterization of `predict_log_probs` on a non-empty input: it succeeds
and row `i` is the model distribution conditioned on ids `0..i`. -/
theorem predict_log_probs_eq (w : ModelWrapper) (tokens : List Str)
    (h : tokens ≠ []) (hstep : 0 < w.tgt_len) :
    w.predict_log_probs tokens = Except.ok
      ((List.range tokens.length).map
        (fun i => w.nextDist ((tokens.map w.vocab.sym2idx).take (i + 1)))) := by
  simp only [ModelWrapper.predict_log_probs, if_neg h]
  rw [foldl_chunkStep_flatten,
    chunkRows_eq_rangeRows w hstep _ _ _ rfl]
  simp

/-- C1: on a non-empty token sequence `predict_log_probs` succeeds with a
matrix whose row count is the number of input tokens and whose column count
is the vocabulary size, and that matrix is the concatenation, in chunk order,
of the per-chunk results of the chunk loop. -/
theorem predict_log_probs_shape (w : ModelWrapper) (tokens : List Str)
    (h : tokens ≠ []) (hstep : 0 < w.tgt_len)
    (hV : ∀ xs, (w.nextDist xs).length = w.vocab.idx2sym.length) :
    ∃ M, w.predict_log_probs tokens = Except.ok M ∧
      M.length = tokens.length ∧
      (∀ row ∈ M, row.length = w.vocab.idx2sym.length) ∧
      M = chunkRows w (tokens.map w.vocab.sym2idx) []
        (pyRange3 (tokens.map w.vocab.sym2idx).length w.tgt_len) := by
  refine ⟨_, predict_log_probs_eq w tokens h hstep, by simp, ?_, ?_⟩
  · intro row hrow
    simp only [List.mem_map] at hrow
    obtain ⟨i, _, hrow⟩ := hrow
    rw [← hrow]
    exact hV _
  · rw [chunkRows_eq_rangeRows w hstep _ _ _ rfl]
    simp

theorem predict_log_probs_shape_witness :
    ∃ M, demoW.predict_log_probs [['a'], ['b']] = Except.ok M ∧
      M.length = ([['a'], ['b']] : List Str).length ∧
      (∀ row ∈ M, row.length = demoW.vocab.idx2sym.length) ∧
      M = chunkRows demoW ([['a'], ['b']].map demoW.vocab.sym2idx) []
        (pyRange3 ([['a'], ['b']].map demoW.vocab.sym2idx).length
          demoW.tgt_len) :=
  predict_log_probs_shape demoW [['a'], ['b']] (by decide) (by decide)
    (fun _ => rfl)

/-- C2: for token sequences longer than the model's maximum chunk length, the
chunked computation of `predict_log_probs` — consecutive, non-overlapping
chunks of length `tgt_len` with the memory state carried from chunk to chunk
within the call — produces exactly the matrix of the hypothetical
single-chunk forward pass over the whole sequence. -/
theorem predict_log_probs_eq_singlePass (w : ModelWrapper) (tokens : List Str)
    (h : tokens ≠ []) (hstep : 0 < w.tgt_len)
    (_hlen : w.tgt_len < tokens.length) :
    w.predict_log_probs tokens = Except.ok (w.singlePass tokens) := by
  rw [predict_log_probs_eq w tokens h hstep, ModelWrapper.singlePass,
    ModelWrapper.forward]
  simp

theorem predict_log_probs_eq_singlePass_witness :
    demoW.predict_log_probs [['a'], ['b']] =
      Except.ok (demoW.singlePass [['a'], ['b']]) :=
  predict_log_probs_eq_singlePass demoW [['a'], ['b']] (by decide) (by decide)
    (by decide)

/-- The argsort index list is a permutation of all row indices. -/
theorem argsort_perm (key : List ℚ) :
    (argsort key).Perm (List.range key.length) :=
  List.perm_insertionSort _ _

theorem argsort_length (key : List ℚ) :
    (argsort key).length = key.length := by
  rw [(argsort_perm key).length_eq, List.length_range]

theorem mem_argsort (key : List ℚ) {i : Nat} :
    i ∈ argsort key ↔ i < key.length := by
  rw [(argsort_perm key).mem_iff, List.mem_range]

/-- The argsort index list is sorted by ascending value. -/
theorem argsort_sorted (key : List ℚ) :
    List.Sorted (argsortRel key) (argsort key) :=
  List.sorted_insertionSort _ _

theorem pySliceLast_sublist (k : Nat) (l : List α) :
    (pySliceLast k l).Sublist l := by
  rw [pySliceLast]
  split
  · exact List.Sublist.refl l
  · exact List.drop_sublist _ _

theorem pySliceLast_length (k : Nat) (l : List α) (hk : 1 ≤ k) :
    (pySliceLast k l).length = min k l.length := by
  rw [pySliceLast, if_neg (by omega), List.length_drop]
  omega

theorem pySliceLast_zero (l : List α) : pySliceLast 0 l = l := rfl

/-- Zipping a list with its image under a map pairs each element with its
image. -/
theorem zip_map_self (l : List α) (f : α → β) :
    l.zip (l.map f) = l.map fun a => (a, f a) := by
  induction l with
  | nil => rfl
  | cons a l ih => simp [ih]

/-- The kept top indices, sliced off the end of the argsort order, are still
sorted by ascending value. -/
theorem topIndices_sorted (key : List ℚ) (k : Nat) :
    List.Sorted (argsortRel key) (pySliceLast k (argsort key)) :=
  List.Pairwise.sublist (pySliceLast_sublist k (argsort key))
    (argsort_sorted key)

/-- The last row read by `next_top_k` and `sample_next` is the model
distribution conditioned on the whole id sequence. -/
theorem lastRow_eq (w : ModelWrapper) (tokens : List Str)
    (h : tokens ≠ []) (hstep : 0 < w.tgt_len) :
    w.lastRow tokens = w.nextDist (tokens.map w.vocab.sym2idx) := by
  rw [ModelWrapper.lastRow, predict_log_probs_eq w tokens h hstep]
  simp only [Except.toOption, Option.getD_some]
  obtain ⟨n, hn⟩ : ∃ n, tokens.length = n + 1 :=
    ⟨tokens.length - 1, by cases tokens <;> simp_all⟩
  rw [hn, List.range_succ, List.map_append, List.map_singleton,
    List.getLastD_concat]
  have hlen : (tokens.map w.vocab.sym2idx).length = n + 1 := by simp [hn]
  rw [← hlen, List.take_length]

/-- Computed form of `next_top_k` on a non-empty input: the kept top indices,
each paired as symbol and log-probability, in reversed (descending) order. -/
theorem next_top_k_eq (w : ModelWrapper) (tokens : List Str)
    (h : tokens ≠ []) (hstep : 0 < w.tgt_len) (top_k : Nat) :
    w.next_top_k tokens top_k = Except.ok
      (((pySliceLast top_k (argsort (w.lastRow tokens))).map fun i =>
        (w.vocab.idx2sym.getD i [], (w.lastRow tokens).getD i 0)).reverse) := by
  have hkey : w.lastRow tokens =
      ((List.range tokens.length).map
        (fun i => w.nextDist
          ((tokens.map w.vocab.sym2idx).take (i + 1)))).getLastD [] := by
    rw [ModelWrapper.lastRow, predict_log_probs_eq w tokens h hstep]
    simp [Except.toOption]
  rw [ModelWrapper.next_top_k, predict_log_probs_eq w tokens h hstep]
  dsimp only
  rw [← hkey, zip_map_self, List.map_reverse, List.map_map]
  rfl

/-- Computed form of `sample_next` on a non-empty input: the symbol at the
kept top index selected by the (skolemized) multinomial draw. -/
theorem sample_next_eq (w : ModelWrapper) (tokens : List Str)
    (h : tokens ≠ []) (hstep : 0 < w.tgt_len) (top_k pick : Nat) :
    w.sample_next tokens top_k pick =
      if pick < (pySliceLast top_k (argsort (w.lastRow tokens))).length then
        Except.ok (w.vocab.idx2sym.getD
          ((pySliceLast top_k (argsort (w.lastRow tokens))).getD pick 0) [])
      else Except.error "invalid multinomial draw" := by
  have hkey : w.lastRow tokens =
      ((List.range tokens.length).map
        (fun i => w.nextDist
          ((tokens.map w.vocab.sym2idx).take (i + 1)))).getLastD [] := by
    rw [ModelWrapper.lastRow, predict_log_probs_eq w tokens h hstep]
    simp [Except.toOption]
  rw [ModelWrapper.sample_next, predict_log_probs_eq w tokens h hstep]
  dsimp only
  rw [← hkey]

/-- C3 (amended): for every non-empty token sequence and every `top_k ≥ 1`,
`next_top_k` returns exactly `min top_k V` entries (`V` the vocabulary size,
so all of them when the vocabulary is smaller than `top_k`), ordered by
non-increasing log-probability, highest first, each entry pairing a
vocabulary index's symbol with that index's log-probability in the last row.
The restriction to `top_k ≥ 1` is forced by the `top_k = 0` counterexample. -/
theorem next_top_k_spec_pos (w : ModelWrapper) (tokens : List Str)
    (top_k : Nat) (h : tokens ≠ []) (hstep : 0 < w.tgt_len)
    (hV : ∀ xs, (w.nextDist xs).length = w.vocab.idx2sym.length)
    (hk : 1 ≤ top_k) :
    ∃ l, w.next_top_k tokens top_k = Except.ok l ∧
      l.length = min top_k w.vocab.idx2sym.length ∧
      List.Sorted (· ≥ ·) (l.map Prod.snd) ∧
      ∀ p ∈ l, ∃ i, i < w.vocab.idx2sym.length ∧
        p = (w.vocab.idx2sym.getD i [], (w.lastRow tokens).getD i 0) := by
  have hkeylen : (w.lastRow tokens).length = w.vocab.idx2sym.length := by
    rw [lastRow_eq w tokens h hstep]
    exact hV _
  refine ⟨_, next_top_k_eq w tokens h hstep top_k, ?_, ?_, ?_⟩
  · simp [pySliceLast_length _ _ hk, argsort_length, hkeylen]
  · rw [List.map_reverse, List.map_map]
    rw [List.Sorted, List.pairwise_reverse]
    refine List.Pairwise.map _ ?_ (topIndices_sorted (w.lastRow tokens) top_k)
    intro i j hij
    rcases hij with hlt | ⟨heq, _⟩
    · exact le_of_lt hlt
    · exact le_of_eq heq
  · intro p hp
    rw [List.mem_reverse, List.mem_map] at hp
    obtain ⟨i, hi, hpi⟩ := hp
    have hmem : i ∈ argsort (w.lastRow tokens) :=
      (pySliceLast_sublist top_k (argsort (w.lastRow tokens))).mem hi
    rw [mem_argsort, hkeylen] at hmem
    exact ⟨i, hmem, hpi.symm⟩

theorem next_top_k_spec_pos_witness :
    ∃ l, demoW.next_top_k [['a']] 40 = Except.ok l ∧
      l.length = min 40 demoW.vocab.idx2sym.length ∧
      List.Sorted (· ≥ ·) (l.map Prod.snd) ∧
      ∀ p ∈ l, ∃ i, i < demoW.vocab.idx2sym.length ∧
        p = (demoW.vocab.idx2sym.getD i [],
          (demoW.lastRow [['a']]).getD i 0) :=
  next_top_k_spec_pos demoW [['a']] 40 (by decide) (by decide)
    (fun _ => rfl) (by decide)

/-- C3 counterexample: the claim promises, for every `top_k`, exactly
`top_k` entries when the vocabulary is not smaller than `top_k`; at
`top_k = 0` the Python slice `[-0:]` keeps the whole index list, so
`next_top_k` returns one entry per vocabulary symbol — here 2 entries, not
the 0 entries the claim demands. -/
theorem next_top_k_zero_cex :
    (demoW.next_top_k [['a']] 0).toOption.map List.length = some 2 := by
  decide

/-- C4: any symbol `sample_next` can return — whatever the multinomial draw,
skolemized as a valid position `pick` into the kept top indices — is one of
the symbols of the `next_top_k` result for the same tokens and `top_k`;
symbols outside that set are never returned. -/
theorem sample_next_in_top_k (w : ModelWrapper) (tokens : List Str)
    (top_k pick : Nat) (h : tokens ≠ []) (hstep : 0 < w.tgt_len)
    (hpick : pick <
      (pySliceLast top_k (argsort (w.lastRow tokens))).length) :
    ∃ s l, w.sample_next tokens top_k pick = Except.ok s ∧
      w.next_top_k tokens top_k = Except.ok l ∧ s ∈ l.map Prod.fst := by
  have hs := sample_next_eq w tokens h hstep top_k pick
  rw [if_pos hpick] at hs
  refine ⟨_, _, hs, next_top_k_eq w tokens h hstep top_k, ?_⟩
  rw [List.map_reverse, List.map_map, List.mem_reverse]
  refine List.mem_map.mpr ⟨(pySliceLast top_k
    (argsort (w.lastRow tokens))).getD pick 0, ?_, rfl⟩
  rw [List.getD_eq_getElem _ _ hpick]
  exact List.getElem_mem hpick

theorem sample_next_in_top_k_witness :
    0 < (pySliceLast 40 (argsort (demoW.lastRow [['a']]))).length ∧
      ∃ s l, demoW.sample_next [['a']] 40 0 = Except.ok s ∧
        demoW.next_top_k [['a']] 40 = Except.ok l ∧ s ∈ l.map Prod.fst :=
  ⟨by decide,
    sample_next_in_top_k demoW [['a']] 40 0 (by decide) (by decide)
      (by decide)⟩

/-- C10: with `top_k = 0` the Python slice `[-0:]` keeps every index, so
`next_top_k` returns one entry per vocabulary symbol — vocabulary-size
entries, not zero — and `sample_next` samples from the entire vocabulary:
every vocabulary symbol is returned for some draw. -/
theorem top_k_zero_full_vocab (w : ModelWrapper) (tokens : List Str)
    (h : tokens ≠ []) (hstep : 0 < w.tgt_len)
    (hV : ∀ xs, (w.nextDist xs).length = w.vocab.idx2sym.length) :
    ((w.next_top_k tokens 0).toOption.map List.length =
      some w.vocab.idx2sym.length) ∧
    ∀ j, j < w.vocab.idx2sym.length → ∃ pick,
      w.sample_next tokens 0 pick =
        Except.ok (w.vocab.idx2sym.getD j []) := by
  have hkeylen : (w.lastRow tokens).length = w.vocab.idx2sym.length := by
    rw [lastRow_eq w tokens h hstep]
    exact hV _
  constructor
  · rw [next_top_k_eq w tokens h hstep 0]
    simp [pySliceLast_zero, argsort_length, hkeylen, Except.toOption]
  · intro j hj
    have hjmem : j ∈ argsort (w.lastRow tokens) := by
      rw [mem_argsort, hkeylen]
      exact hj
    obtain ⟨n, hn⟩ := List.mem_iff_get.mp hjmem
    refine ⟨n.val, ?_⟩
    rw [sample_next_eq w tokens h hstep 0 n.val, pySliceLast_zero,
      if_pos n.isLt]
    rw [List.getD_eq_getElem _ _ n.isLt]
    rw [← List.get_eq_getElem, hn]

theorem top_k_zero_full_vocab_witness :
    ((demoW.next_top_k [['a']] 0).toOption.map List.length =
      some demoW.vocab.idx2sym.length) ∧
    ∀ j, j < demoW.vocab.idx2sym.length → ∃ pick,
      demoW.sample_next [['a']] 0 pick =
        Except.ok (demoW.vocab.idx2sym.getD j []) :=
  top_k_zero_full_vocab demoW [['a']] (by decide) (by decide) (fun _ => rfl)

/-- The generation loop, for any number of steps that all succeed, yields one
fragment per step, and the decoded start extended by the fragments is the
decoding of the final token sequence — provided the decoder satisfies the
boundary contract the source relies on (decoding a sequence extended by one
token appends exactly the two-token delta of its last boundary). -/
theorem sampleRun_reconstruct_aux (w : ModelWrapper) (top_k : Nat)
    (hdec : ∀ (ts : List Str) (t : Str), ts ≠ [] →
      w.decode (ts ++ [t]) = w.decode ts ++
        (w.decode [ts.getLastD [], t]).drop
          (w.decode [ts.getLastD []]).length) :
    ∀ (picks : List Nat) (tokens frags final : List Str), tokens ≠ [] →
      w.sampleRun top_k tokens picks = Except.ok (frags, final) →
      frags.length = picks.length ∧
        w.decode tokens ++ frags.flatten = w.decode final := by
  intro picks
  induction picks with
  | nil =>
    intro tokens frags final _ hrun
    rw [ModelWrapper.sampleRun] at hrun
    obtain ⟨hf, ht⟩ : [] = frags ∧ tokens = final := by
      simpa using hrun
    subst hf
    subst ht
    simp
  | cons pick picks ih =>
    intro tokens frags final hne hrun
    rw [ModelWrapper.sampleRun] at hrun
    cases hsn : w.sample_next tokens top_k pick with
    | error e => rw [hsn] at hrun; simp at hrun
    | ok next_token =>
      rw [hsn] at hrun
      dsimp only at hrun
      cases hrec : w.sampleRun top_k (tokens ++ [next_token]) picks with
      | error e => rw [hrec] at hrun; simp at hrun
      | ok res =>
        rw [hrec] at hrun
        obtain ⟨frags', final'⟩ := res
        obtain ⟨hf, ht⟩ :
            (w.decode [tokens.getLastD [], next_token]).drop
              (w.decode [tokens.getLastD []]).length :: frags' = frags ∧
              final' = final := by
          simpa using hrun
        subst hf
        subst ht
        obtain ⟨ihlen, ihdec⟩ :=
          ih (tokens ++ [next_token]) frags' final' (by simp) hrec
        refine ⟨by simp [ihlen], ?_⟩
        rw [List.flatten_cons, ← List.append_assoc,
          ← hdec tokens next_token hne]
        exact ihdec

/-- C8: consuming N steps of `sample_text_iter(text)` yields exactly N
fragments, and appending their concatenation, in order, to the decoding of
the initial tokenization of `text` gives exactly the decoding of the final
token sequence — under the decoder boundary contract (`hdec`) the source's
fragment computation relies on. -/
theorem sample_text_iter_reconstruct (w : ModelWrapper) (text : Str)
    (top_k : Nat) (picks : List Nat) (toks frags final : List Str)
    (hdec : ∀ (ts : List Str) (t : Str), ts ≠ [] →
      w.decode (ts ++ [t]) = w.decode ts ++
        (w.decode [ts.getLastD [], t]).drop
          (w.decode [ts.getLastD []]).length)
    (htok : w.tokenize text = Except.ok toks) (hne : toks ≠ [])
    (hrun : w.sample_text_iter text top_k picks = Except.ok (frags, final)) :
    frags.length = picks.length ∧
      w.decode toks ++ frags.flatten = w.decode final := by
  rw [ModelWrapper.sample_text_iter, htok] at hrun
  exact sampleRun_reconstruct_aux w top_k hdec picks toks frags final hne hrun

theorem sample_text_iter_reconstruct_witness :
    ([['a']] : List Str).length = ([0] : List Nat).length ∧
      demoW.decode [['a']] ++ ([['a']] : List Str).flatten =
        demoW.decode [['a'], ['a']] :=
  sample_text_iter_reconstruct demoW ['a'] 40 [0] [['a']] [['a']]
    [['a'], ['a']]
    (by
      intro ts t h
      simp [demoW, List.drop_left])
    (by rfl) (by decide) (by rfl)

/-- C9: the token sequence held by the generation loop grows only by the
explicit per-iteration append of the sampled token — after any number of
successful steps the final sequence is the initial one followed by exactly
one new token per step.  `predict_log_probs`, `next_top_k` and `sample_next`
are embedded as pure functions of the token list, mirroring the source
bodies, which only read it (the `tokens = tokens` rebinding in `sample_next`
mutates nothing), so no call mutates the caller's list. -/
theorem sampleRun_grows_by_append (w : ModelWrapper) (top_k : Nat) :
    ∀ (picks : List Nat) (tokens frags final : List Str),
      w.sampleRun top_k tokens picks = Except.ok (frags, final) →
      ∃ news, final = tokens ++ news ∧ news.length = picks.length := by
  intro picks
  induction picks with
  | nil =>
    intro tokens frags final hrun
    rw [ModelWrapper.sampleRun] at hrun
    obtain ⟨-, ht⟩ : [] = frags ∧ tokens = final := by simpa using hrun
    exact ⟨[], by simp [← ht]⟩
  | cons pick picks ih =>
    intro tokens frags final hrun
    rw [ModelWrapper.sampleRun] at hrun
    cases hsn : w.sample_next tokens top_k pick with
    | error e => rw [hsn] at hrun; simp at hrun
    | ok next_token =>
      rw [hsn] at hrun
      dsimp only at hrun
      cases hrec : w.sampleRun top_k (tokens ++ [next_token]) picks with
      | error e => rw [hrec] at hrun; simp at hrun
      | ok res =>
        rw [hrec] at hrun
        obtain ⟨frags', final'⟩ := res
        obtain ⟨-, ht⟩ :
            (w.decode [tokens.getLastD [], next_token]).drop
              (w.decode [tokens.getLastD []]).length :: frags' = frags ∧
              final' = final := by
          simpa using hrun
        obtain ⟨news, hn, hlen⟩ := ih (tokens ++ [next_token]) frags' final' hrec
        exact ⟨next_token :: news, by
          rw [← ht, hn]
          simp, by simp [hlen]⟩

theorem sampleRun_grows_by_append_witness :
    ∃ news, ([['a'], ['a']] : List Str) = [['a']] ++ news ∧
      news.length = ([0] : List Nat).length :=
  sampleRun_grows_by_append demoW 40 [0] [['a']] [['a']] [['a'], ['a']]
    (by rfl)
